import Mathlib

/-!
Verification of the MongoDB session-store adapter
(`sanic_session/mongodb.py`).

The adapter stores per-client session records `{sid, expiry, data}` in a
document collection.  We embed the collection as a list of records in
insertion order, the MongoDB driver operations used by the adapter
(`find_one`, `delete_one`, `replace_one` with `upsert=True`,
`create_index`) as pure functions on that list, and the adapter methods
`_get_value`, `_delete_key`, `_set_value`, together with the relevant
constructor logic of `MongoDBSessionInterface.__init__` and the
`apply_session_indexes` startup listener.

Time is modelled as natural-number seconds; `datetime.utcnow()` becomes an
explicit `now : Nat` argument, and `timedelta(seconds=ttl)` an addition.
The session payload (`data`) is an opaque type parameter, matching the
store never inspecting it.
-/

set_option autoImplicit false

namespace SanicSession

/-- A stored session document: the fixed on-disk schema
`{sid, expiry, data}` written by `_set_value`. -/
structure SessionRecord (α : Type) where
  sid : String
  expiry : Nat
  data : α
deriving DecidableEq

/-- The session collection, as documents in insertion order. -/
abbrev Store (α : Type) := List (SessionRecord α)

/-- MongoDB `find_one({sid: key})`: the first document whose `sid` field
equals `key`, or none. -/
def find_one {α : Type} (s : Store α) (key : String) : Option (SessionRecord α) :=
  s.find? (fun r => r.sid == key)

/-- MongoDB `delete_one({sid: key})`: removes the first document whose
`sid` field equals `key`; removes nothing when no document matches. -/
def delete_one {α : Type} (s : Store α) (key : String) : Store α :=
  match s with
  | [] => []
  | r :: rs => if r.sid == key then rs else r :: delete_one rs key

/-- MongoDB `replace_one({sid: key}, doc, upsert=True)`: replaces the
first document whose `sid` field equals `key` by `doc`; when no document
matches, inserts `doc` (upsert). -/
def replace_one {α : Type} (s : Store α) (key : String) (doc : SessionRecord α) : Store α :=
  match s with
  | [] => [doc]
  | r :: rs => if r.sid == key then doc :: rs else r :: replace_one rs key doc

/-- Embedding of `MongoDBSessionInterface._get_value`: looks up the
document by `sid` and returns its `data` field, or none.  The
`keyPrefix` argument (Python `prefix`) is accepted and ignored, exactly
as in the source. -/
def _get_value {α : Type} (keyPrefix : String) (key : String) (s : Store α) : Option α :=
  (find_one s key).map (fun r => r.data)

/-- Embedding of `MongoDBSessionInterface._delete_key`:
`delete_one({sid: key})`. -/
def _delete_key {α : Type} (key : String) (s : Store α) : Store α :=
  delete_one s key

/-- Embedding of `MongoDBSessionInterface._set_value`: computes
`expiry = now + ttl` (Python `datetime.utcnow() + timedelta(seconds=self.expiry)`)
and issues `replace_one({sid: key}, {sid: key, expiry, data}, upsert=True)`. -/
def _set_value {α : Type} (now ttl : Nat) (key : String) (data : α) (s : Store α) : Store α :=
  replace_one s key ⟨key, now + ttl, data⟩

/-- The arguments `MongoDBSessionInterface.__init__` forwards to
`BaseSessionInterface.__init__`, plus whether a `DeprecationWarning` was
emitted.  Only the parts the claims are about are retained. -/
structure MongoInitResult where
  baseHttponly : Bool
  keyPrefix : String
  warned : Bool
  expiry : Nat
deriving DecidableEq

/-- Embedding of the relevant logic of
`MongoDBSessionInterface.__init__`: the prefix is fixed to the empty
string, the `httponly` value forwarded to the base interface is the
hardcoded literal `True`, and a `DeprecationWarning` is emitted exactly
when the caller passes `httponly` not identical to `True`
(`if httponly is not True`). -/
def mongoInit (httponly : Bool) (expiry : Nat) : MongoInitResult :=
  { baseHttponly := true
    keyPrefix := ""
    warned := !httponly
    expiry := expiry }

/-- An index specification in the session collection: the indexed field
name and, for a TTL index, the `expireAfterSeconds` option. -/
structure IndexSpec where
  field : String
  expireAfterSeconds : Option Nat
deriving DecidableEq

/-- Modelled from the spec: the storage engine's `create_index`, which
is not part of this repository, has idempotent create-index-if-absent
semantics ("the underlying engine's own idempotent create index if
absent semantics"). -/
def create_index (idxs : List IndexSpec) (i : IndexSpec) : List IndexSpec :=
  if i ∈ idxs then idxs else idxs ++ [i]

/-- The index on the `sid` field created for faster lookup. -/
def sidIndex : IndexSpec := ⟨"sid", none⟩

/-- The TTL index on the `expiry` field created with
`expireAfterSeconds=0` for document expiration. -/
def expiryIndex : IndexSpec := ⟨"expiry", some 0⟩

/-- Embedding of the `apply_session_indexes` listener body: it creates
the `sid` index and then the `expiry` TTL index. -/
def apply_session_indexes (idxs : List IndexSpec) : List IndexSpec :=
  create_index (create_index idxs sidIndex) expiryIndex

/-- The event the `apply_session_indexes` listener is registered for. -/
def apply_session_indexes_event : String := "after_server_start"

/-- The store operations the adapter exposes for mutation: write and
delete, keyed by the session id. -/
inductive Op (α : Type) where
  | set (now ttl : Nat) (key : String) (data : α)
  | del (key : String)

/-- The session id an operation acts on. -/
def Op.key {α : Type} : Op α → String
  | .set _ _ k _ => k
  | .del k => k

/-- One adapter operation applied to a store state. -/
def applyOp {α : Type} (s : Store α) : Op α → Store α
  | .set now ttl key data => _set_value now ttl key data s
  | .del key => _delete_key key s

/-- A sequence of adapter operations applied to a store state. -/
def runOps {α : Type} (s : Store α) (ops : List (Op α)) : Store α :=
  ops.foldl applyOp s

/-- At most one record per `sid`: the list of `sid` fields has no
duplicates. -/
abbrev uniqueSids {α : Type} (s : Store α) : Prop :=
  (s.map (fun r => r.sid)).Nodup

/-- The documents of the store whose `sid` field equals `k`. -/
def recordsFor {α : Type} (s : Store α) (k : String) : Store α :=
  s.filter (fun r => r.sid == k)

section Lemmas

variable {α : Type}

theorem find_one_replace_one_self (s : Store α) (key : String)
    (doc : SessionRecord α) (hdoc : doc.sid = key) :
    find_one (replace_one s key doc) key = some doc := by
  induction s with
  | nil => simp [replace_one, find_one, hdoc]
  | cons r rs ih =>
    by_cases h : r.sid = key
    · simp [replace_one, find_one, h, hdoc]
    · simpa [replace_one, find_one, h] using ih

theorem find_one_replace_one_other (s : Store α) (key k' : String)
    (doc : SessionRecord α) (hdoc : doc.sid = key) (h : k' ≠ key) :
    find_one (replace_one s key doc) k' = find_one s k' := by
  have hks : ¬ key = k' := fun hh => h (Eq.symm hh)
  induction s with
  | nil => simp [replace_one, find_one, hdoc, hks]
  | cons r rs ih =>
    by_cases hr : r.sid = key
    · have hrk : ¬ r.sid = k' := fun hk => h (hk ▸ hr ▸ rfl)
      simp [replace_one, find_one, hr, hdoc, hrk, hks]
    · by_cases hk : r.sid = k'
      · simp [replace_one, find_one, hr, hk, h]
      · simpa [replace_one, find_one, hr, hk] using ih

theorem find_one_delete_one_other (s : Store α) (key k' : String)
    (h : k' ≠ key) :
    find_one (delete_one s key) k' = find_one s k' := by
  have hks : ¬ key = k' := fun hh => h (Eq.symm hh)
  induction s with
  | nil => simp [delete_one]
  | cons r rs ih =>
    by_cases hr : r.sid = key
    · have hrk : ¬ r.sid = k' := fun hk => h (hk ▸ hr ▸ rfl)
      simp [delete_one, find_one, hr, hrk, hks]
    · by_cases hk : r.sid = k'
      · simp [delete_one, find_one, hr, hk, h]
      · simpa [delete_one, find_one, hr, hk] using ih

theorem find_one_set_self (now ttl : Nat) (key : String) (d : α) (s : Store α) :
    find_one (_set_value now ttl key d s) key = some ⟨key, now + ttl, d⟩ :=
  find_one_replace_one_self s key _ rfl

theorem delete_one_sublist (s : Store α) (key : String) :
    (delete_one s key).Sublist s := by
  induction s with
  | nil => simp [delete_one]
  | cons r rs ih =>
    by_cases hr : r.sid = key
    · simp [delete_one, hr]
    · simpa [delete_one, hr] using ih.cons₂ r

theorem mem_sids_replace_one (s : Store α) (key : String)
    (doc : SessionRecord α) (x : String)
    (hx : x ∈ (replace_one s key doc).map (fun r => r.sid)) :
    x ∈ s.map (fun r => r.sid) ∨ x = doc.sid := by
  induction s with
  | nil =>
    right
    simpa [replace_one] using hx
  | cons r rs ih =>
    by_cases hr : r.sid = key
    · rw [show replace_one (r :: rs) key doc = doc :: rs by
        simp [replace_one, hr], List.map_cons] at hx
      rcases List.mem_cons.mp hx with hd | ht
      · exact Or.inr hd
      · exact Or.inl (by rw [List.map_cons]; exact List.mem_cons_of_mem _ ht)
    · rw [show replace_one (r :: rs) key doc = r :: replace_one rs key doc by
        simp [replace_one, hr], List.map_cons] at hx
      rcases List.mem_cons.mp hx with hd | ht
      · exact Or.inl (by rw [List.map_cons, hd]; exact List.mem_cons_self _ _)
      · rcases ih ht with hin | heq
        · exact Or.inl (by rw [List.map_cons]; exact List.mem_cons_of_mem _ hin)
        · exact Or.inr heq

theorem uniqueSids_set_value (now ttl : Nat) (key : String) (d : α)
    (s : Store α) (h : uniqueSids s) :
    uniqueSids (_set_value now ttl key d s) := by
  unfold _set_value
  induction s with
  | nil => simp [replace_one, uniqueSids]
  | cons r rs ih =>
    rcases List.nodup_cons.mp h with ⟨hrmem, htail⟩
    by_cases hr : r.sid = key
    · rw [show replace_one (r :: rs) key ⟨key, now + ttl, d⟩ =
          (⟨key, now + ttl, d⟩ : SessionRecord α) :: rs by simp [replace_one, hr]]
      exact List.nodup_cons.mpr ⟨by simpa [hr] using hrmem, htail⟩
    · rw [show replace_one (r :: rs) key ⟨key, now + ttl, d⟩ =
          r :: replace_one rs key ⟨key, now + ttl, d⟩ by simp [replace_one, hr]]
      refine List.nodup_cons.mpr ⟨?_, ih htail⟩
      intro hmem
      rcases mem_sids_replace_one rs key _ r.sid hmem with hin | heq
      · exact hrmem hin
      · exact hr heq

theorem uniqueSids_delete_key (key : String) (s : Store α)
    (h : uniqueSids s) : uniqueSids (_delete_key key s) :=
  List.Nodup.sublist ((delete_one_sublist s key).map _) h

theorem find_one_eq_none_of_not_mem_sids (s : Store α) (key : String)
    (h : key ∉ s.map (fun r => r.sid)) : find_one s key = none := by
  rw [find_one, List.find?_eq_none]
  intro r hr
  simpa using fun hsid => h (List.mem_map.mpr ⟨r, hr, hsid⟩)

theorem find_one_delete_one_self (s : Store α) (key : String)
    (h : uniqueSids s) : find_one (delete_one s key) key = none := by
  induction s with
  | nil => simp [delete_one, find_one]
  | cons r rs ih =>
    by_cases hr : r.sid = key
    · have : key ∉ rs.map (fun r => r.sid) := by
        simpa [uniqueSids, hr] using (List.nodup_cons.mp h).1
      simpa [delete_one, hr] using find_one_eq_none_of_not_mem_sids rs key this
    · have htail : uniqueSids rs := (List.nodup_cons.mp h).2
      simpa [delete_one, find_one, hr] using ih htail

theorem delete_one_of_find_one_none (s : Store α) (key : String)
    (h : find_one s key = none) : delete_one s key = s := by
  induction s with
  | nil => simp [delete_one]
  | cons r rs ih =>
    rw [find_one, List.find?_eq_none] at h
    have hr : ¬ r.sid = key := by
      simpa using h r (by simp)
    have htail : find_one rs key = none := by
      rw [find_one, List.find?_eq_none]
      intro x hx
      exact h x (by simp [hx])
    simp [delete_one, hr, ih htail]

theorem recordsFor_set_value_other (now ttl : Nat) (key k' : String)
    (h : k' ≠ key) (d : α) (s : Store α) :
    recordsFor (_set_value now ttl key d s) k' = recordsFor s k' := by
  have hks : ¬ key = k' := fun hh => h (Eq.symm hh)
  induction s with
  | nil => simp [_set_value, replace_one, recordsFor, hks]
  | cons r rs ih =>
    by_cases hr : r.sid = key
    · have hrk : ¬ r.sid = k' := fun hk => h (hk ▸ hr ▸ rfl)
      rw [show _set_value now ttl key d (r :: rs) =
          (⟨key, now + ttl, d⟩ : SessionRecord α) :: rs by
        simp [_set_value, replace_one, hr]]
      simp [recordsFor, hrk, hks]
    · rw [show _set_value now ttl key d (r :: rs) =
          r :: _set_value now ttl key d rs by simp [_set_value, replace_one, hr]]
      by_cases hk : r.sid = k'
      · simp only [recordsFor] at ih ⊢
        simp [List.filter_cons, hk, ih]
      · simp only [recordsFor] at ih ⊢
        simp [List.filter_cons, hk, ih]

theorem recordsFor_delete_key_other (key k' : String) (h : k' ≠ key)
    (s : Store α) :
    recordsFor (_delete_key key s) k' = recordsFor s k' := by
  induction s with
  | nil => simp [_delete_key, delete_one]
  | cons r rs ih =>
    by_cases hr : r.sid = key
    · have hrk : ¬ r.sid = k' := fun hk => h (hk ▸ hr ▸ rfl)
      rw [show _delete_key key (r :: rs) = rs by simp [_delete_key, delete_one, hr]]
      simp [recordsFor, List.filter_cons, hrk]
    · rw [show _delete_key key (r :: rs) = r :: _delete_key key rs by
        simp [_delete_key, delete_one, hr]]
      simp only [recordsFor] at ih ⊢
      by_cases hk : r.sid = k'
      · simp [List.filter_cons, hk, ih]
      · simp [List.filter_cons, hk, ih]

theorem find_one_runOps_untouched (key : String) (ops : List (Op α))
    (h : ∀ op ∈ ops, op.key ≠ key) (s : Store α) :
    find_one (runOps s ops) key = find_one s key := by
  induction ops generalizing s with
  | nil => rfl
  | cons op rest ih =>
    have hop : op.key ≠ key := h op (by simp)
    have hrest : ∀ o ∈ rest, Op.key o ≠ key := fun o ho => h o (by simp [ho])
    rw [runOps, List.foldl_cons, ← runOps, ih hrest]
    cases op with
    | set now ttl k d =>
      exact find_one_replace_one_other s k key _ rfl (fun hh => hop hh.symm)
    | del k =>
      exact find_one_delete_one_other s k key (fun hh => hop hh.symm)

theorem uniqueSids_applyOp (s : Store α) (op : Op α) (h : uniqueSids s) :
    uniqueSids (applyOp s op) := by
  cases op with
  | set now ttl k d => exact uniqueSids_set_value now ttl k d s h
  | del k => exact uniqueSids_delete_key k s h

theorem uniqueSids_runOps (ops : List (Op α)) (s : Store α)
    (h : uniqueSids s) : uniqueSids (runOps s ops) := by
  induction ops generalizing s with
  | nil => exact h
  | cons op rest ih =>
    rw [runOps, List.foldl_cons]
    exact ih (applyOp s op) (uniqueSids_applyOp s op h)

theorem mem_create_index_self (idxs : List IndexSpec) (i : IndexSpec) :
    i ∈ create_index idxs i := by
  unfold create_index
  split
  · assumption
  · simp

theorem mem_create_index_of_mem (idxs : List IndexSpec) (i j : IndexSpec)
    (h : j ∈ idxs) : j ∈ create_index idxs i := by
  unfold create_index
  split
  · exact h
  · simp [h]

theorem create_index_eq_of_mem (idxs : List IndexSpec) (i : IndexSpec)
    (h : i ∈ idxs) : create_index idxs i = idxs := by
  simp [create_index, h]

end Lemmas

section Claims

/-- C1: after a successful `set(key, data)`, and as long as no subsequent
store operation targets that key (so the record is neither overwritten
nor deleted), `get(key)` returns exactly the stored data: round-trip
identity through the store. -/
theorem get_roundtrip_after_set {α : Type} (keyPrefix : String)
    (now ttl : Nat) (key : String) (d : α) (s : Store α) (ops : List (Op α))
    (h : ∀ op ∈ ops, op.key ≠ key) :
    _get_value keyPrefix key (runOps (_set_value now ttl key d s) ops) =
      some d := by
  rw [_get_value, find_one_runOps_untouched key ops h, find_one_set_self]
  rfl

theorem get_roundtrip_after_set_witness :
    (∀ op ∈ ([Op.del "b"] : List (Op String)), op.key ≠ "a") ∧
      _get_value "" "a"
        (runOps (_set_value 5 10 "a" "x" ([] : Store String)) [Op.del "b"]) =
        some "x" :=
  ⟨by decide,
    get_roundtrip_after_set "" 5 10 "a" "x" [] [Op.del "b"] (by decide)⟩

/-- C2: `set(key, data)` computes `expiry = now + ttl` and replaces the
full record for `key` with exactly `{sid: key, expiry, data}`, inserting
it when absent (upsert); since this holds for every store state and
every `now`, the expiry is recomputed on every write, even when the data
is unchanged. -/
theorem set_stores_exact_record {α : Type} (now ttl : Nat) (key : String)
    (d : α) (s : Store α) :
    find_one (_set_value now ttl key d s) key =
      some ⟨key, now + ttl, d⟩ :=
  find_one_set_self now ttl key d s

/-- C3: `set(key, data1)` then `set(key, data2)` then `get(key)` returns
`data2`: the second write fully replaces the first record, with no
merging of fields or payloads. -/
theorem set_set_get_returns_second {α : Type} (keyPrefix : String)
    (now1 ttl1 now2 ttl2 : Nat) (key : String) (d1 d2 : α) (s : Store α) :
    _get_value keyPrefix key
      (_set_value now2 ttl2 key d2 (_set_value now1 ttl1 key d1 s)) =
      some d2 := by
  rw [_get_value, find_one_set_self]
  rfl

/-- C4: in every store state reachable from the empty store by any
sequence of set and delete operations, at most one record exists per
`sid`: set performs replace-or-insert keyed by `sid` and never creates a
second record for the same `sid`, and delete never breaks uniqueness. -/
theorem uniqueSids_reachable {α : Type} (ops : List (Op α)) :
    uniqueSids (runOps ([] : Store α) ops) :=
  uniqueSids_runOps ops [] List.nodup_nil

/-- C5: `delete(key)` followed by `get(key)` returns absent (`none`),
regardless of whether a record for that key existed before the delete,
in every store state with at most one record per `sid`. -/
theorem get_after_delete_none {α : Type} (keyPrefix key : String)
    (s : Store α) (h : uniqueSids s) :
    _get_value keyPrefix key (_delete_key key s) = none := by
  rw [_get_value, _delete_key, find_one_delete_one_self s key h]
  rfl

theorem get_after_delete_none_witness :
    uniqueSids [(⟨"a", 5, "x"⟩ : SessionRecord String)] ∧
      _get_value "" "a"
        (_delete_key "a" [(⟨"a", 5, "x"⟩ : SessionRecord String)]) = none :=
  ⟨by decide, get_after_delete_none "" "a" _ (by decide)⟩

/-- C6: deleting a key with no existing record is a no-op: `_delete_key`
leaves the store state unchanged (and, being a total function, raises no
error). -/
theorem delete_missing_key_noop {α : Type} (key : String) (s : Store α)
    (h : find_one s key = none) : _delete_key key s = s :=
  delete_one_of_find_one_none s key h

theorem delete_missing_key_noop_witness :
    find_one [(⟨"b", 5, "x"⟩ : SessionRecord String)] "a" = none ∧
      _delete_key "a" [(⟨"b", 5, "x"⟩ : SessionRecord String)] =
        [(⟨"b", 5, "x"⟩ : SessionRecord String)] :=
  ⟨by decide, delete_missing_key_noop "a" _ (by decide)⟩

/-- C7: whatever `httponly` value the caller passes to the constructor,
the value forwarded to the base interface is the hardcoded constant
`true`, and a deprecation warning is emitted exactly when the caller
passes anything other than `True`. -/
theorem httponly_hardcoded_true (b : Bool) (e : Nat) :
    (mongoInit b e).baseHttponly = true ∧
      ((mongoInit b e).warned = true ↔ b ≠ true) := by
  cases b <;> simp [mongoInit]

/-- C8: the startup initialization action (registered for the
after-server-start event) creates exactly two indexes — one on the `sid`
field for lookup and a TTL index on the `expiry` field with
`expireAfterSeconds = 0` — and invoking it twice neither errors nor
duplicates indexes (it is idempotent on every index state). -/
theorem apply_session_indexes_two_and_idempotent :
    apply_session_indexes_event = "after_server_start" ∧
      apply_session_indexes [] = [sidIndex, expiryIndex] ∧
      ∀ idxs, apply_session_indexes (apply_session_indexes idxs) =
        apply_session_indexes idxs := by
  refine ⟨rfl, by decide, fun idxs => ?_⟩
  have h2 : sidIndex ∈ apply_session_indexes idxs :=
    mem_create_index_of_mem _ _ _ (mem_create_index_self idxs sidIndex)
  have h3 : expiryIndex ∈ apply_session_indexes idxs :=
    mem_create_index_self _ _
  show create_index
      (create_index (apply_session_indexes idxs) sidIndex) expiryIndex =
    apply_session_indexes idxs
  rw [create_index_eq_of_mem _ _ h2, create_index_eq_of_mem _ _ h3]

/-- C9: the result of `_get_value(prefix, key)` does not depend on the
prefix argument — for any two prefixes, any key and any store state the
results coincide — and the constructor configures an empty prefix. -/
theorem get_value_ignores_keyPrefix {α : Type} :
    (∀ (p1 p2 key : String) (s : Store α),
        _get_value p1 key s = _get_value p2 key s) ∧
      ∀ (b : Bool) (e : Nat), (mongoInit b e).keyPrefix = "" :=
  ⟨fun _ _ _ _ => rfl, fun _ _ => rfl⟩

/-- C10: `set(key, data)` and `delete(key)` leave every record whose
`sid` differs from `key` unchanged: both operations filter on `sid`
equal to `key`, so the records stored under any other sid are neither
modified nor removed. -/
theorem set_delete_frame {α : Type} (now ttl : Nat) (key k' : String)
    (d : α) (s : Store α) (h : k' ≠ key) :
    recordsFor (_set_value now ttl key d s) k' = recordsFor s k' ∧
      recordsFor (_delete_key key s) k' = recordsFor s k' :=
  ⟨recordsFor_set_value_other now ttl key k' h d s,
    recordsFor_delete_key_other key k' h s⟩

theorem set_delete_frame_witness :
    ("b" : String) ≠ "a" ∧
      (recordsFor (_set_value 1 2 "a" "x"
            [(⟨"b", 7, "y"⟩ : SessionRecord String)]) "b" =
          recordsFor [(⟨"b", 7, "y"⟩ : SessionRecord String)] "b" ∧
        recordsFor (_delete_key "a"
            [(⟨"b", 7, "y"⟩ : SessionRecord String)]) "b" =
          recordsFor [(⟨"b", 7, "y"⟩ : SessionRecord String)] "b") :=
  ⟨by decide, set_delete_frame 1 2 "a" "b" "x" _ (by decide)⟩

end Claims

end SanicSession
